import Mathlib

/-!
Verification of the cron utility (`src/lib/util/Cron.js`).

The class `Cron` parses a 5-field cron expression into five integer lists
(minutes, hours, days, months, dows) and computes the next matching UTC
date at minute resolution.  We embed the pipeline shallowly:

* timestamps are natural numbers of milliseconds since the Unix epoch
  (the embedding covers the post-1970 instants that `Date` manipulates);
* strings are lists of characters; ECMAScript string operations used by
  the source (`split`, `join`, `includes`, `toLowerCase`, `parseInt` on
  digit groups, number-to-string coercion) are embedded as executable
  functions on `List Char`;
* the regular-expression match of a field subpart, and the tables
  (`allowedNum`, `predefined`, `tokens`, `day`) that live in the
  `constants` module absent from `src/`, are modelled from the spec;
* the `throw` in `_parseString` and the `TypeError` raised when
  `partRegex.exec` returns `null` become an `Except`/`Option` error value;
* the unbounded day-by-day recursion of `next` becomes a fuel-indexed
  function returning `none` when the fuel runs out.
-/

namespace Cron

/-! ## UTC date arithmetic (embedding of the ECMAScript `Date` getters) -/

def msPerMinute : Nat := 60000

def msPerHour : Nat := 3600000

/-- Modelled from the spec: the `day` constant of the absent `constants`
module, the number of milliseconds added to advance the search by one day
("recurse with `referenceMoment + 1 day`"). -/
def day : Nat := 86400000

/-- Embedding of `getUTCMinutes`. -/
def utcMinutes (z : Nat) : Nat := z / msPerMinute % 60

/-- Embedding of `getUTCHours`. -/
def utcHours (z : Nat) : Nat := z / msPerHour % 24

/-- Days since the epoch of the instant `z`. -/
def dayNumber (z : Nat) : Nat := z / day

/-- Embedding of `getUTCDay`: the epoch day 1970-01-01 was a Thursday (4). -/
def utcDow (z : Nat) : Nat := (dayNumber z + 4) % 7

/-- Civil (proleptic Gregorian) date of a day number: `(year, month 1-12,
day-of-month)`.  Standard era-based conversion, valid for every day number
at or after the epoch. -/
def civilFromDays (n : Nat) : Nat × Nat × Nat :=
  let z := n + 719468
  let era := z / 146097
  let doe := z % 146097
  let yoe := (doe - doe / 1460 + doe / 36524 - doe / 146096) / 365
  let y := yoe + era * 400
  let doy := doe - (365 * yoe + yoe / 4 - yoe / 100)
  let mp := (5 * doy + 2) / 153
  let d := doy - (153 * mp + 2) / 5 + 1
  let m := if mp < 10 then mp + 3 else mp - 9
  (if m ≤ 2 then y + 1 else y, m, d)

/-- Day number of a civil date (month given 1-12), inverse of
`civilFromDays` on post-epoch dates. -/
def daysFromCivil (y m d : Nat) : Nat :=
  let y' := if m ≤ 2 then y - 1 else y
  let era := y' / 400
  let yoe := y' % 400
  let mp := if 2 < m then m - 3 else m + 9
  let doy := (153 * mp + 2) / 5 + d - 1
  let doe := yoe * 365 + yoe / 4 - yoe / 100 + doy
  era * 146097 + doe - 719468

/-- Embedding of `getUTCFullYear`. -/
def utcFullYear (z : Nat) : Nat := (civilFromDays (dayNumber z)).1

/-- Embedding of `getUTCMonth` (zero-based month, 0-11). -/
def utcMonth0 (z : Nat) : Nat := (civilFromDays (dayNumber z)).2.1 - 1

/-- Embedding of `getUTCDate` (day of month, 1-31). -/
def utcDate (z : Nat) : Nat := (civilFromDays (dayNumber z)).2.2

/-- Embedding of `Date.UTC(year, month0, date, hour, minute)` for
non-negative arguments: out-of-range hour/minute overflow into later days
exactly as ECMAScript normalizes them. -/
def mkUTC (y m0 d hour minute : Nat) : Nat :=
  daysFromCivil y (m0 + 1) d * day + hour * msPerHour + minute * msPerMinute

/-! ## Character-list helpers (embedding of the string operations) -/

/-- Embedding of `String.prototype.split(sep)` for a one-character
separator: `"a,,b".split(',') = ["a","","b"]`, `"".split(',') = [""]`. -/
def splitCh (sep : Char) : List Char → List (List Char)
  | [] => [[]]
  | c :: cs =>
    match splitCh sep cs with
    | [] => [[c]]
    | h :: t => if c = sep then [] :: h :: t else (c :: h) :: t

/-- Embedding of `Array.prototype.join(sep)` for a one-character separator. -/
def joinCh (sep : Char) : List (List Char) → List Char
  | [] => []
  | [x] => x
  | x :: xs => x ++ sep :: joinCh sep xs

/-- Map with the element index, as `Array.prototype.map((val, i) => ...)`. -/
def mapWithIdx (f : Nat → List Char → List Char) : Nat → List (List Char) → List (List Char)
  | _, [] => []
  | i, x :: xs => f i x :: mapWithIdx f (i + 1) xs

def isDigitCh (c : Char) : Bool := decide ('0' ≤ c) && decide (c ≤ '9')

/-- Longest digit prefix of a character list, with the remainder. -/
def takeDigits : List Char → List Char × List Char
  | [] => ([], [])
  | c :: cs =>
    if isDigitCh c then
      let p := takeDigits cs
      (c :: p.1, p.2)
    else ([], c :: cs)

/-- Embedding of `parseInt` on a group of decimal digits. -/
def charsToNat (s : List Char) : Nat :=
  s.foldl (fun a c => 10 * a + (c.toNat - 48)) 0

/-- Decimal digits of a number, the ECMAScript number-to-string coercion
performed by `Array.prototype.join`.  Structural on an internal fuel that
is always sufficient. -/
def natToCharsCore : Nat → Nat → List Char → List Char
  | 0, _, acc => acc
  | fuel + 1, n, acc =>
    let c := Char.ofNat (48 + n % 10)
    if n < 10 then c :: acc else natToCharsCore fuel (n / 10) (c :: acc)

def natToChars (n : Nat) : List Char := natToCharsCore (n + 1) n []

/-! ## Modelled constant tables -/

/-- Modelled from the spec: the `allowedNum` domain table of the absent
`constants` module — per-field `(min, max)` bounds, positions
0 = minute `[0,59]`, 1 = hour `[0,23]`, 2 = day-of-month `[1,31]`,
3 = month `[1,12]`, 4 = day-of-week `[0,6]`. -/
def allowedNum : Nat → Nat × Nat
  | 0 => (0, 59)
  | 1 => (0, 23)
  | 2 => (1, 31)
  | 3 => (1, 12)
  | _ => (0, 6)

/-- Modelled from the spec: the `predefined` alias table of the absent
`constants` module, mapping shorthand strings to full 5-field expansions
for the hourly/daily/weekly/monthly/yearly cadences. -/
def predefined : List (List Char × List Char) :=
  [ (['@', 'h', 'o', 'u', 'r', 'l', 'y'], ['0', ' ', '*', ' ', '*', ' ', '*', ' ', '*'])
  , (['@', 'd', 'a', 'i', 'l', 'y'], ['0', ' ', '0', ' ', '*', ' ', '*', ' ', '*'])
  , (['@', 'w', 'e', 'e', 'k', 'l', 'y'], ['0', ' ', '0', ' ', '*', ' ', '*', ' ', '0'])
  , (['@', 'm', 'o', 'n', 't', 'h', 'l', 'y'], ['0', ' ', '0', ' ', '1', ' ', '*', ' ', '*'])
  , (['@', 'y', 'e', 'a', 'r', 'l', 'y'], ['0', ' ', '0', ' ', '1', ' ', '1', ' ', '*'])
  , (['@', 'a', 'n', 'n', 'u', 'a', 'l', 'l', 'y'], ['0', ' ', '0', ' ', '1', ' ', '1', ' ', '*'])
  ]

/-- Modelled from the spec: the `tokens` table of the absent `constants`
module — weekday abbreviations map to 0-6 and month abbreviations map to
1-12, matched case-insensitively (the expression is lower-cased first). -/
def tokens : List (List Char × Nat) :=
  [ (['s', 'u', 'n'], 0), (['m', 'o', 'n'], 1), (['t', 'u', 'e'], 2)
  , (['w', 'e', 'd'], 3), (['t', 'h', 'u'], 4), (['f', 'r', 'i'], 5)
  , (['s', 'a', 't'], 6)
  , (['j', 'a', 'n'], 1), (['f', 'e', 'b'], 2), (['m', 'a', 'r'], 3)
  , (['a', 'p', 'r'], 4), (['m', 'a', 'y'], 5), (['j', 'u', 'n'], 6)
  , (['j', 'u', 'l'], 7), (['a', 'u', 'g'], 8), (['s', 'e', 'p'], 9)
  , (['o', 'c', 't'], 10), (['n', 'o', 'v'], 11), (['d', 'e', 'c'], 12)
  ]

def lookupTable (k : List Char) : List (List Char × List Char) → Option (List Char)
  | [] => none
  | (k', v) :: t => if k = k' then some v else lookupTable k t

/-- Modelled from the spec: the token-substitution pass
`cron.replace(tokensRegex, match => tokens[match])` — every occurrence of
a symbolic token is replaced by its numeric value, without matching inside
larger tokens (no token of the table is a prefix of another). -/
def replaceTokensAux : Nat → List Char → List Char
  | 0, s => s
  | _ + 1, [] => []
  | fuel + 1, c :: cs =>
    match tokens.findSome? (fun tv => if tv.1.isPrefixOf (c :: cs) then some tv else none) with
    | some tv => natToChars tv.2 ++ replaceTokensAux fuel ((c :: cs).drop tv.1.length)
    | none => c :: replaceTokensAux fuel cs

def replaceTokens (s : List Char) : List Char := replaceTokensAux s.length s

/-! ## The field-subpart grammar (modelled `partRegex`) and the parser -/

/-- The capture groups of a successful subpart match. -/
structure PartMatch where
  wild : Bool
  minG : Option (List Char)
  maxG : Option (List Char)
  stepG : Option (List Char)
  deriving DecidableEq

/-- Trailing `(?:\/(\d+))?$` of the subpart pattern. -/
def matchStep (s : List Char) : Option (Option (List Char)) :=
  if s = [] then some none
  else if s.head? = some '/' then
    let p := takeDigits s.tail
    if p.1 = [] ∨ p.2 ≠ [] then none else some (some p.1)
  else none

/-- Modelled from the spec: the `partRegex` of the absent `constants`
module, accepting a wildcard, a bare integer, or a range, each with an
optional step — `^(?:(\*)|(\d+)(?:-(\d+))?)(?:\/(\d+))?$`.  The match is
deterministic because a digit can continue neither the `-`/`/` separators
nor the end of the pattern. -/
def matchPart (s : List Char) : Option PartMatch :=
  if s.head? = some '*' then (matchStep s.tail).map (fun st => ⟨true, none, none, st⟩)
  else
    let p := takeDigits s
    if p.1 = [] then none
    else if p.2.head? = some '-' then
      let q := takeDigits p.2.tail
      if q.1 = [] then none
      else (matchStep q.2).map (fun st => ⟨false, some p.1, some q.1, st⟩)
    else (matchStep p.2).map (fun st => ⟨false, some p.1, none, st⟩)

/-- Embedding of `Cron._range`. -/
def rangeList (mn mx step : Nat) : List Nat :=
  let p := if mx < mn then (mx, mn) else (mn, mx)
  (List.range ((p.2 - p.1) / step + 1)).map (fun i => p.1 + i * step)

/-- The step argument passed to `_range`:
`parseInt(step) || 1` — an omitted group or one whose digits read as `0`
is coerced to `1`. -/
def stepOf (g : Option (List Char)) : Nat :=
  match g with
  | none => 1
  | some ds => if charsToNat ds = 0 then 1 else charsToNat ds

/-- The max argument passed to `_range`:
`parseInt(max) || allowedNum[id][1]` — an omitted group or one whose
digits read as `0` is replaced by the field's domain maximum. -/
def maxOf (id : Nat) (g : Option (List Char)) : Nat :=
  match g with
  | none => (allowedNum id).2
  | some ds => if charsToNat ds = 0 then (allowedNum id).2 else charsToNat ds

/-- The `(min, max, step)` triple handed to `_range` by `_parsePart`, or
`none` on the bare-integer early return `[parseInt(min)]`. -/
def partArgs (m : PartMatch) (id : Nat) : Option (Nat × Nat × Nat) :=
  if m.wild then some ((allowedNum id).1, (allowedNum id).2, stepOf m.stepG)
  else
    match m.minG with
    | none => none
    | some mn =>
      if m.maxG = none ∧ m.stepG = none then none
      else some (charsToNat mn, maxOf id m.maxG, stepOf m.stepG)

/-- Embedding of `Cron._parsePart` on a comma-free subpart: a failed regex
match (the `null` destructuring `TypeError`) is `none`. -/
def parsePartNoComma (s : List Char) (id : Nat) : Option (List Nat) :=
  match matchPart s with
  | none => none
  | some m =>
    match partArgs m id with
    | none => m.minG.map (fun mn => [charsToNat mn])
    | some a => some (rangeList a.1 a.2.1 a.2.2)

def parseSubparts (id : Nat) : List (List Char) → Option (List (List Nat))
  | [] => some []
  | p :: ps =>
    match parsePartNoComma p id, parseSubparts id ps with
    | some r, some rs => some (r :: rs)
    | _, _ => none

/-- First-occurrence deduplication, the embedding of `[...new Set(res)]`. -/
def dedupFirst (seen : List Nat) : List Nat → List Nat
  | [] => []
  | a :: l => if a ∈ seen then dedupFirst seen l else a :: dedupFirst (a :: seen) l

/-- Embedding of `Cron._parsePart`.  On a comma list the source recurses
on each comma-free piece (a piece can hold no comma, so the recursion is
one level deep and is inlined here), concatenates, deduplicates via a
`Set` and sorts numerically ascending. -/
def parsePart (s : List Char) (id : Nat) : Option (List Nat) :=
  if ',' ∈ s then
    match parseSubparts id (splitCh ',' s) with
    | some rs => some (List.insertionSort (· ≤ ·) (dedupFirst [] rs.flatten))
    | none => none
  else parsePartNoComma s id

inductive CronError where
  | structural
  | badField
  deriving DecidableEq

def parseFields : Nat → List (List Char) → Option (List (List Nat))
  | _, [] => some []
  | i, p :: ps =>
    match parsePart p i, parseFields (i + 1) ps with
    | some r, some rs => some (r :: rs)
    | _, _ => none

/-- Embedding of `Cron._parseString`: split on spaces, throw
`new Error('Invalid Cron Provided')` (`.structural`) unless exactly 5
parts, then parse each part at its index (a subpart grammar failure,
a `TypeError` in the source, is `.badField`). -/
def parseString (s : List Char) : Except CronError (List (List Nat)) :=
  let parts := splitCh ' ' s
  if parts.length ≠ 5 then .error .structural
  else
    match parseFields 0 parts with
    | some fs => .ok fs
    | none => .error .badField

/-! ## The normalizer -/

/-- Embedding of the per-field callback of `_normalize`'s
`cron.split(' ').map((val, i) => ...)`: the `'h'` placeholder becomes a
random integer in the field's domain (the draw is the `rand` oracle), the
`'?'` placeholder becomes the matching component of the current moment —
and at the month position the source inserts the zero-based
`now.getUTCMonth()` — and any other field is left unchanged. -/
def normalizeField (rand : Nat → Nat) (now : Nat) (i : Nat) (val : List Char) : List Char :=
  if val = ['h'] then natToChars (rand i % ((allowedNum i).2 + 1))
  else if val = ['?'] then
    match i with
    | 0 => natToChars (utcMinutes now)
    | 1 => natToChars (utcHours now)
    | 2 => natToChars (utcDate now)
    | 3 => natToChars (utcMonth0 now)
    | 4 => natToChars (utcDow now)
    | _ => val
  else val

/-- Embedding of `Cron._normalize`: return a predefined alias expansion
verbatim, otherwise substitute the dynamic placeholders field by field,
rejoin with spaces and run the token-substitution pass. -/
def normalize (rand : Nat → Nat) (now : Nat) (cron : List Char) : List Char :=
  match lookupTable cron predefined with
  | some v => v
  | none => replaceTokens (joinCh ' ' (mapWithIdx (normalizeField rand now) 0 (splitCh ' ' cron)))

/-! ## The schedule and the occurrence finder -/

structure Sched where
  minutes : List Nat
  hours : List Nat
  days : List Nat
  months : List Nat
  dows : List Nat
  deriving DecidableEq

/-- The destructuring `[this.minutes, this.hours, this.days, this.months,
this.dows] = ...` of the parsed field lists. -/
def toSched (l : List (List Nat)) : Sched :=
  ⟨l.getD 0 [], l.getD 1 [], l.getD 2 [], l.getD 3 [], l.getD 4 []⟩

/-- Embedding of the `Cron` constructor: lower-case, normalize, parse. -/
def mkSchedule (rand : Nat → Nat) (now : Nat) (cron : List Char) : Except CronError Sched :=
  match parseString (normalize rand now (cron.map Char.toLower)) with
  | .ok fs => .ok (toSched fs)
  | .error e => .error e

/-- The day test of `next`: `days.includes(getUTCDate()) &&
months.includes(getUTCMonth() + 1) && dows.includes(getUTCDay())`. -/
def dayQualifies (s : Sched) (z : Nat) : Bool :=
  decide (utcDate z ∈ s.days) && decide (utcMonth0 z + 1 ∈ s.months)
    && decide (utcDow z ∈ s.dows)

/-- The `Date.UTC(getUTCFullYear(), getUTCMonth(), getUTCDate(), hour,
minute)` return value of `next`. -/
def retDate (z hour minute : Nat) : Nat :=
  mkUTC (utcFullYear z) (utcMonth0 z) (utcDate z) hour minute

/-- Combine the selected hour/minute with the day; an `undefined`
component (`none`) yields the Invalid-Date outcome `none`. -/
def mkRet (z : Nat) : Option Nat → Option Nat → Option Nat
  | some h, some m => some (retDate z h m)
  | _, _ => none

def findIdxF (p : Nat → Bool) : List Nat → Option Nat
  | [] => none
  | a :: l => if p a then some 0 else (findIdxF p l).map (· + 1)

/-- Embedding of `Cron.next`.  The result is `none` when the fuel is
exhausted (the source recursion is unbounded), `some none` for an
Invalid-Date outcome (an `undefined` hour or minute reached `Date.UTC`),
and `some (some r)` for a returned timestamp `r`. -/
def nextFuel (s : Sched) : Nat → Nat → Bool → Option (Option Nat)
  | 0, _, _ => none
  | fuel + 1, z, origin =>
    if dayQualifies s z then
      if origin then
        let now := z + 60000
        match findIdxF (fun hr => decide (utcHours now ≤ hr)) s.hours with
        | none => nextFuel s fuel (z + day) false
        | some hourIndex =>
          match findIdxF (fun mn => decide (utcMinutes now ≤ mn)) s.minutes with
          | none =>
            match s.hours.get? (hourIndex + 1) with
            | none => nextFuel s fuel (z + day) false
            | some h => some (mkRet z (some h) s.minutes.head?)
          | some minuteIndex =>
            some (mkRet z (s.hours.get? hourIndex) (s.minutes.get? minuteIndex))
      else some (mkRet z s.hours.head? s.minutes.head?)
    else nextFuel s fuel (z + day) false

/-! ## Concrete expressions and schedules used in the scenarios -/

/-- The expression `"* * * * *"`. -/
def exprStar : List Char := ['*', ' ', '*', ' ', '*', ' ', '*', ' ', '*']

/-- The schedule parsed from `"* * * * *"`. -/
def schedStar : Sched :=
  ⟨List.range 60, List.range 24, (List.range 31).map (· + 1),
    (List.range 12).map (· + 1), List.range 7⟩

/-- The expression `"0,55 5 * * *"`. -/
def expr0555 : List Char :=
  ['0', ',', '5', '5', ' ', '5', ' ', '*', ' ', '*', ' ', '*']

/-- The schedule parsed from `"0,55 5 * * *"`. -/
def sched0555 : Sched :=
  ⟨[0, 55], [5], (List.range 31).map (· + 1), (List.range 12).map (· + 1), List.range 7⟩

/-- The expression `"0 0 * * *"`. -/
def exprMidnight : List Char := ['0', ' ', '0', ' ', '*', ' ', '*', ' ', '*']

/-- The schedule parsed from `"0 0 * * *"`. -/
def schedMidnight : Sched :=
  ⟨[0], [0], (List.range 31).map (· + 1), (List.range 12).map (· + 1), List.range 7⟩

/-- The expression `"5,1,3 * * * *"`. -/
def expr513 : List Char :=
  ['5', ',', '1', ',', '3', ' ', '*', ' ', '*', ' ', '*', ' ', '*']

/-- The schedule parsed from `"5,1,3 * * * *"`. -/
def sched513 : Sched :=
  ⟨[1, 3, 5], List.range 24, (List.range 31).map (· + 1),
    (List.range 12).map (· + 1), List.range 7⟩

/-- The expression `"70 0 1 1 0"` (out-of-domain minute numeral). -/
def expr70 : List Char := ['7', '0', ' ', '0', ' ', '1', ' ', '1', ' ', '0']

/-- The expression `"* * * ? *"` (current-value placeholder in the month
field). -/
def exprQMonth : List Char := ['*', ' ', '*', ' ', '*', ' ', '?', ' ', '*']

/-- The expression `"0 0 1 1 1"`. -/
def exprNewYear : List Char := ['0', ' ', '0', ' ', '1', ' ', '1', ' ', '1']

/-! ## Helper lemmas -/

theorem findIdxF_lt {p : Nat → Bool} :
    ∀ {l : List Nat} {i : Nat}, findIdxF p l = some i → i < l.length := by
  intro l
  induction l with
  | nil => intro i h; simp [findIdxF] at h
  | cons a t ih =>
    intro i h
    by_cases hpa : p a
    · simp [findIdxF, hpa] at h
      subst h
      simp
    · simp [findIdxF, hpa] at h
      obtain ⟨j, hj, rfl⟩ := h
      have := ih hj
      simp
      omega

theorem get?_some_of_lt :
    ∀ (l : List Nat) (i : Nat), i < l.length → ∃ a, l.get? i = some a
  | a :: _, 0, _ => ⟨a, rfl⟩
  | _ :: l, i + 1, h => get?_some_of_lt l i (by simpa using h)

theorem getD_mem_of_lt {α : Type} (d : α) :
    ∀ (l : List α) (i : Nat), i < l.length → l.getD i d ∈ l
  | a :: _, 0, _ => List.mem_cons_self a _
  | _ :: l, i + 1, h =>
    List.mem_cons_of_mem _ (getD_mem_of_lt d l i (by simpa using h))

theorem mem_dedupFirst {a : Nat} :
    ∀ {l seen : List Nat}, a ∈ dedupFirst seen l ↔ a ∈ l ∧ a ∉ seen := by
  intro l
  induction l with
  | nil => intro seen; simp [dedupFirst]
  | cons b t ih =>
    intro seen
    by_cases hb : b ∈ seen
    · simp only [dedupFirst, if_pos hb, ih, List.mem_cons]
      constructor
      · tauto
      · rintro ⟨rfl | h1, h2⟩
        · exact absurd hb h2
        · exact ⟨h1, h2⟩
    · simp only [dedupFirst, if_neg hb, List.mem_cons, ih]
      by_cases hab : a = b
      · subst hab; tauto
      · tauto

theorem nodup_dedupFirst : ∀ (l seen : List Nat), (dedupFirst seen l).Nodup := by
  intro l
  induction l with
  | nil => intro seen; simp [dedupFirst]
  | cons b t ih =>
    intro seen
    by_cases hb : b ∈ seen
    · simpa [dedupFirst, if_pos hb] using ih seen
    · simp only [dedupFirst, if_neg hb]
      refine List.nodup_cons.mpr ⟨fun hmem => ?_, ih (b :: seen)⟩
      exact (mem_dedupFirst.mp hmem).2 (List.mem_cons_self b seen)

theorem rangeList_eq (mn mx st : Nat) :
    rangeList mn mx st =
      (List.range ((max mn mx - min mn mx) / st + 1)).map (fun i => min mn mx + i * st) := by
  unfold rangeList
  rcases Nat.lt_or_ge mx mn with hc | hc
  · have h1 : min mn mx = mx := by omega
    have h2 : max mn mx = mn := by omega
    simp [hc, h1, h2]
  · have hc' : ¬ mx < mn := by omega
    have h1 : min mn mx = mn := by omega
    have h2 : max mn mx = mx := by omega
    simp [hc', h1, h2]

theorem rangeList_length (mn mx st : Nat) :
    (rangeList mn mx st).length = (max mn mx - min mn mx) / st + 1 := by
  rw [rangeList_eq]; simp

theorem rangeList_ne_nil (mn mx st : Nat) : rangeList mn mx st ≠ [] := by
  intro h
  have := rangeList_length mn mx st
  rw [h] at this
  simp at this

theorem rangeList_pairwise {mn mx st : Nat} (hst : 1 ≤ st) :
    (rangeList mn mx st).Pairwise (· < ·) := by
  rw [rangeList_eq]
  refine List.pairwise_map.mpr ((List.pairwise_lt_range _).imp ?_)
  intro a b hab
  have hmul : a * st < b * st := mul_lt_mul_of_pos_right hab (by omega)
  omega

theorem one_le_stepOf (g : Option (List Char)) : 1 ≤ stepOf g := by
  cases g with
  | none => simp [stepOf]
  | some ds =>
    by_cases h : charsToNat ds = 0
    · simp [stepOf, h]
    · simp only [stepOf, if_neg h]
      omega

theorem partArgs_step {m : PartMatch} {id mn mx st : Nat}
    (h : partArgs m id = some (mn, mx, st)) : 1 ≤ st := by
  unfold partArgs at h
  by_cases hw : m.wild
  · rw [if_pos hw] at h
    simp only [Option.some.injEq, Prod.mk.injEq] at h
    obtain ⟨-, -, hst⟩ := h
    rw [← hst]
    exact one_le_stepOf _
  · rw [if_neg hw] at h
    cases hmin : m.minG with
    | none => rw [hmin] at h; simp at h
    | some mn' =>
      rw [hmin] at h
      by_cases hc : m.maxG = none ∧ m.stepG = none
      · simp [hc] at h
      · simp only [if_neg hc, Option.some.injEq, Prod.mk.injEq] at h
        obtain ⟨-, -, hst⟩ := h
        rw [← hst]
        exact one_le_stepOf _

theorem parsePartNoComma_spec {s : List Char} {id : Nat} {l : List Nat}
    (h : parsePartNoComma s id = some l) : l ≠ [] ∧ l.Pairwise (· < ·) := by
  unfold parsePartNoComma at h
  cases hm : matchPart s with
  | none => rw [hm] at h; simp at h
  | some m =>
    rw [hm] at h
    have h2 : (match partArgs m id with
        | none => Option.map (fun mn => [charsToNat mn]) m.minG
        | some a => some (rangeList a.1 a.2.1 a.2.2)) = some l := h
    cases ha : partArgs m id with
    | none =>
      rw [ha] at h2
      cases hmin : m.minG with
      | none => rw [hmin] at h2; simp at h2
      | some mn =>
        rw [hmin] at h2
        simp only [Option.map_some', Option.some.injEq] at h2
        rw [← h2]
        exact ⟨by simp, by simp⟩
    | some a =>
      obtain ⟨mn, mx, st⟩ := a
      rw [ha] at h2
      simp only [Option.some.injEq] at h2
      rw [← h2]
      exact ⟨rangeList_ne_nil _ _ _, rangeList_pairwise (partArgs_step ha)⟩

theorem parseSubparts_spec {id : Nat} :
    ∀ {ps : List (List Char)} {rs : List (List Nat)},
      parseSubparts id ps = some rs →
      rs.length = ps.length ∧ ∀ r ∈ rs, r ≠ [] := by
  intro ps
  induction ps with
  | nil =>
    intro rs h
    simp only [parseSubparts, Option.some.injEq] at h
    rw [← h]
    simp
  | cons p pt ih =>
    intro rs h
    unfold parseSubparts at h
    cases hp : parsePartNoComma p id with
    | none => rw [hp] at h; simp at h
    | some r =>
      rw [hp] at h
      cases ht : parseSubparts id pt with
      | none => rw [ht] at h; simp at h
      | some rt =>
        rw [ht] at h
        simp only [Option.some.injEq] at h
        rw [← h]
        obtain ⟨hl, hmem⟩ := ih ht
        refine ⟨by simp [hl], ?_⟩
        intro r' hr'
        rcases List.mem_cons.mp hr' with rfl | hr'
        · exact (parsePartNoComma_spec hp).1
        · exact hmem r' hr'

theorem splitCh_ne_nil (sep : Char) : ∀ s : List Char, splitCh sep s ≠ [] := by
  intro s
  induction s with
  | nil => simp [splitCh]
  | cons c cs ih =>
    simp only [splitCh]
    cases h : splitCh sep cs with
    | nil => simp
    | cons hd tl => by_cases hc : c = sep <;> simp [hc]

theorem parsePart_spec {s : List Char} {id : Nat} {l : List Nat}
    (h : parsePart s id = some l) : l ≠ [] ∧ l.Pairwise (· < ·) := by
  unfold parsePart at h
  by_cases hc : ',' ∈ s
  · rw [if_pos hc] at h
    cases hp : parseSubparts id (splitCh ',' s) with
    | none => rw [hp] at h; simp at h
    | some rs =>
      rw [hp] at h
      simp only [Option.some.injEq] at h
      obtain ⟨hlen, hmem⟩ := parseSubparts_spec hp
      have hne : dedupFirst [] rs.flatten ≠ [] := by
        cases rs with
        | nil =>
          exfalso
          have := splitCh_ne_nil ',' s
          cases hsp : splitCh ',' s with
          | nil => exact this hsp
          | cons a b => rw [hsp] at hlen; simp at hlen
        | cons r rt =>
          have hr : r ≠ [] := hmem r (List.mem_cons_self _ _)
          cases r with
          | nil => exact absurd rfl hr
          | cons x xt =>
            have hx : x ∈ (((x :: xt) :: rt) : List (List Nat)).flatten := by simp
            have : x ∈ dedupFirst [] ((x :: xt) :: rt).flatten :=
              mem_dedupFirst.mpr ⟨hx, by simp⟩
            exact List.ne_nil_of_mem this
      have hperm : List.Perm (dedupFirst [] rs.flatten)
          (List.insertionSort (· ≤ ·) (dedupFirst [] rs.flatten)) :=
        (List.perm_insertionSort _ _).symm
      have hsorted : List.Sorted (· ≤ ·)
          (List.insertionSort (· ≤ ·) (dedupFirst [] rs.flatten)) :=
        List.sorted_insertionSort _ _
      have hnodup : (List.insertionSort (· ≤ ·) (dedupFirst [] rs.flatten)).Nodup :=
        hperm.nodup (nodup_dedupFirst _ _)
      refine ⟨?_, ?_⟩
      · rw [← h]
        intro h0
        have hlen0 := hperm.length_eq
        rw [h0] at hlen0
        simp at hlen0
        exact hne hlen0
      · rw [← h]
        exact (hsorted.and hnodup).imp (fun hx => lt_of_le_of_ne hx.1 hx.2)
  · rw [if_neg hc] at h
    exact parsePartNoComma_spec h

theorem parseFields_spec :
    ∀ {ps : List (List Char)} {i : Nat} {fs : List (List Nat)},
      parseFields i ps = some fs →
      fs.length = ps.length ∧ ∀ l ∈ fs, l ≠ [] ∧ l.Pairwise (· < ·) := by
  intro ps
  induction ps with
  | nil =>
    intro i fs h
    simp only [parseFields, Option.some.injEq] at h
    rw [← h]
    simp
  | cons p pt ih =>
    intro i fs h
    unfold parseFields at h
    cases hp : parsePart p i with
    | none => rw [hp] at h; simp at h
    | some r =>
      rw [hp] at h
      cases ht : parseFields (i + 1) pt with
      | none => rw [ht] at h; simp at h
      | some rt =>
        rw [ht] at h
        simp only [Option.some.injEq] at h
        rw [← h]
        obtain ⟨hl, hmem⟩ := ih ht
        refine ⟨by simp [hl], ?_⟩
        intro l' hl'
        rcases List.mem_cons.mp hl' with rfl | hl'
        · exact parsePart_spec hp
        · exact hmem l' hl'

theorem parseString_ok {s : List Char} {fs : List (List Nat)}
    (h : parseString s = Except.ok fs) :
    fs.length = 5 ∧ ∀ l ∈ fs, l ≠ [] ∧ l.Pairwise (· < ·) := by
  unfold parseString at h
  by_cases hlen : (splitCh ' ' s).length ≠ 5
  · rw [if_pos hlen] at h
    simp at h
  · rw [if_neg hlen] at h
    cases hp : parseFields 0 (splitCh ' ' s) with
    | none => rw [hp] at h; simp at h
    | some fs' =>
      rw [hp] at h
      simp only [Except.ok.injEq] at h
      rw [← h]
      obtain ⟨hl, hmem⟩ := parseFields_spec hp
      refine ⟨?_, hmem⟩
      rw [hl]
      omega

theorem head?_some_of_ne_nil {l : List Nat} (h : l ≠ []) : ∃ x, l.head? = some x := by
  cases l with
  | nil => exact absurd rfl h
  | cons a t => exact ⟨a, rfl⟩

theorem nextFuel_no_invalid {s : Sched} (hm : s.minutes ≠ []) (hh : s.hours ≠ []) :
    ∀ (fuel z : Nat) (o : Bool), nextFuel s fuel z o ≠ some none := by
  obtain ⟨m0, hm0⟩ := head?_some_of_ne_nil hm
  obtain ⟨h0, hh0⟩ := head?_some_of_ne_nil hh
  intro fuel
  induction fuel with
  | zero => intro z o; simp [nextFuel]
  | succ n ih =>
    intro z o
    by_cases hq : dayQualifies s z
    · cases o with
      | false =>
        simp only [nextFuel, if_pos hq, Bool.false_eq_true, if_false]
        rw [hm0, hh0]
        simp [mkRet]
      | true =>
        simp only [nextFuel, if_pos hq, if_true]
        split
        · exact ih (z + day) false
        · rename_i hourIndex hhi
          split
          · split
            · exact ih (z + day) false
            · rw [hm0]
              simp [mkRet]
          · rename_i minuteIndex hmi
            obtain ⟨hv, hhv⟩ := get?_some_of_lt s.hours hourIndex (findIdxF_lt hhi)
            obtain ⟨mv, hmv⟩ := get?_some_of_lt s.minutes minuteIndex (findIdxF_lt hmi)
            rw [hhv, hmv]
            simp [mkRet]
    · simp only [nextFuel, if_neg hq]
      exact ih (z + day) false

theorem mkSchedule_ok {rand : Nat → Nat} {now : Nat} {e : List Char} {sched : Sched}
    (h : mkSchedule rand now e = Except.ok sched) :
    ∃ fs, parseString (normalize rand now (e.map Char.toLower)) = Except.ok fs
      ∧ sched = toSched fs := by
  unfold mkSchedule at h
  cases hp : parseString (normalize rand now (e.map Char.toLower)) with
  | ok fs =>
    rw [hp] at h
    have h2 : (Except.ok (toSched fs) : Except CronError Sched) = Except.ok sched := h
    simp only [Except.ok.injEq] at h2
    exact ⟨fs, rfl, h2.symm⟩
  | error err =>
    rw [hp] at h
    have h2 : (Except.error err : Except CronError Sched) = Except.ok sched := h
    simp at h2

theorem toSched_fields {fs : List (List Nat)} (h5 : fs.length = 5)
    (hmem : ∀ l ∈ fs, l ≠ [] ∧ l.Pairwise (· < ·)) :
    ((toSched fs).minutes ≠ [] ∧ (toSched fs).minutes.Pairwise (· < ·))
  ∧ ((toSched fs).hours ≠ [] ∧ (toSched fs).hours.Pairwise (· < ·))
  ∧ ((toSched fs).days ≠ [] ∧ (toSched fs).days.Pairwise (· < ·))
  ∧ ((toSched fs).months ≠ [] ∧ (toSched fs).months.Pairwise (· < ·))
  ∧ ((toSched fs).dows ≠ [] ∧ (toSched fs).dows.Pairwise (· < ·)) :=
  ⟨hmem _ (getD_mem_of_lt [] fs 0 (by omega)),
   hmem _ (getD_mem_of_lt [] fs 1 (by omega)),
   hmem _ (getD_mem_of_lt [] fs 2 (by omega)),
   hmem _ (getD_mem_of_lt [] fs 3 (by omega)),
   hmem _ (getD_mem_of_lt [] fs 4 (by omega))⟩

/-! ## Scanner lemmas: the subpart grammar on built range texts -/

theorem takeDigits_append (d r : List Char) (hd : ∀ c ∈ d, isDigitCh c = true)
    (hr : ∀ c, r.head? = some c → isDigitCh c = false) :
    takeDigits (d ++ r) = (d, r) := by
  induction d with
  | nil =>
    simp only [List.nil_append]
    cases r with
    | nil => rfl
    | cons c cs =>
      have := hr c rfl
      simp [takeDigits, this]
  | cons c d' ih =>
    have hc := hd c (List.mem_cons_self _ _)
    have ih' := ih (fun x hx => hd x (List.mem_cons_of_mem _ hx))
    simp [takeDigits, hc, ih']

theorem matchPart_range (da db : List Char) (ha : da ≠ []) (hb : db ≠ [])
    (had : ∀ c ∈ da, isDigitCh c = true) (hbd : ∀ c ∈ db, isDigitCh c = true) :
    matchPart (da ++ '-' :: db) = some ⟨false, some da, some db, none⟩ := by
  have hstar : ¬ (da ++ '-' :: db).head? = some '*' := by
    cases da with
    | nil => exact absurd rfl ha
    | cons c t =>
      simp only [List.cons_append, List.head?_cons, Option.some.injEq]
      intro hcontra
      have := had c (List.mem_cons_self _ _)
      rw [hcontra] at this
      exact absurd this (by decide)
  have ht : takeDigits (da ++ '-' :: db) = (da, '-' :: db) :=
    takeDigits_append da ('-' :: db) had
      (by intro c hcc; simp only [List.head?_cons, Option.some.injEq] at hcc
          rw [← hcc]; decide)
  have hq : takeDigits db = (db, []) := by
    simpa using takeDigits_append db [] hbd (by intro c hcc; simp at hcc)
  unfold matchPart
  rw [if_neg hstar]
  simp only [ht, if_neg ha]
  simp [hq, matchStep, hb]

theorem matchPart_rangeStep (da db ds : List Char) (ha : da ≠ []) (hb : db ≠ [])
    (hs : ds ≠ []) (had : ∀ c ∈ da, isDigitCh c = true)
    (hbd : ∀ c ∈ db, isDigitCh c = true) (hsd : ∀ c ∈ ds, isDigitCh c = true) :
    matchPart (da ++ '-' :: db ++ '/' :: ds) = some ⟨false, some da, some db, some ds⟩ := by
  have hstar : ¬ (da ++ '-' :: db ++ '/' :: ds).head? = some '*' := by
    cases da with
    | nil => exact absurd rfl ha
    | cons c t =>
      simp only [List.cons_append, List.head?_cons, Option.some.injEq]
      intro hcontra
      have := had c (List.mem_cons_self _ _)
      rw [hcontra] at this
      exact absurd this (by decide)
  have ht : takeDigits (da ++ '-' :: db ++ '/' :: ds) = (da, '-' :: (db ++ '/' :: ds)) := by
    have := takeDigits_append da ('-' :: (db ++ '/' :: ds)) had
      (by intro c hcc; simp only [List.head?_cons, Option.some.injEq] at hcc
          rw [← hcc]; decide)
    simpa using this
  have hq : takeDigits (db ++ '/' :: ds) = (db, '/' :: ds) :=
    takeDigits_append db ('/' :: ds) hbd
      (by intro c hcc; simp only [List.head?_cons, Option.some.injEq] at hcc
          rw [← hcc]; decide)
  have hs2 : takeDigits ds = (ds, []) := by
    simpa using takeDigits_append ds [] hsd (by intro c hcc; simp at hcc)
  unfold matchPart
  rw [if_neg hstar]
  simp only [ht, if_neg ha]
  simp [hq, matchStep, hb, hs2, hs]

theorem comma_not_mem_range (da db : List Char)
    (had : ∀ c ∈ da, isDigitCh c = true) (hbd : ∀ c ∈ db, isDigitCh c = true) :
    ¬ ',' ∈ da ++ '-' :: db := by
  intro hmem
  rcases List.mem_append.mp hmem with h | h
  · exact absurd (had ',' h) (by decide)
  · rcases List.mem_cons.mp h with h | h
    · exact absurd h (by decide)
    · exact absurd (hbd ',' h) (by decide)

theorem comma_not_mem_rangeStep (da db ds : List Char)
    (had : ∀ c ∈ da, isDigitCh c = true) (hbd : ∀ c ∈ db, isDigitCh c = true)
    (hsd : ∀ c ∈ ds, isDigitCh c = true) :
    ¬ ',' ∈ da ++ '-' :: db ++ '/' :: ds := by
  intro hmem
  rcases List.mem_append.mp hmem with h | h
  · rcases List.mem_append.mp h with h2 | h2
    · exact absurd (had ',' h2) (by decide)
    · rcases List.mem_cons.mp h2 with h3 | h3
      · exact absurd h3 (by decide)
      · exact absurd (hbd ',' h3) (by decide)
  · rcases List.mem_cons.mp h with h2 | h2
    · exact absurd h2 (by decide)
    · exact absurd (hsd ',' h2) (by decide)

theorem parsePart_range (id : Nat) (da db : List Char) (ha : da ≠ []) (hb : db ≠ [])
    (had : ∀ c ∈ da, isDigitCh c = true) (hbd : ∀ c ∈ db, isDigitCh c = true)
    (hnz : charsToNat db ≠ 0) :
    parsePart (da ++ '-' :: db) id
      = some (rangeList (charsToNat da) (charsToNat db) 1) := by
  unfold parsePart
  rw [if_neg (comma_not_mem_range da db had hbd)]
  unfold parsePartNoComma
  rw [matchPart_range da db ha hb had hbd]
  have hargs : partArgs ⟨false, some da, some db, none⟩ id
      = some (charsToNat da, charsToNat db, 1) := by
    unfold partArgs
    simp [stepOf, maxOf, hnz]
  have h2 : (match partArgs ⟨false, some da, some db, none⟩ id with
      | none => Option.map (fun mn => [charsToNat mn])
          (PartMatch.minG ⟨false, some da, some db, none⟩)
      | some a => some (rangeList a.1 a.2.1 a.2.2)) =
      some (rangeList (charsToNat da) (charsToNat db) 1) := by
    rw [hargs]
  exact h2

theorem parsePart_rangeStep (id : Nat) (da db ds : List Char) (ha : da ≠ [])
    (hb : db ≠ []) (hs : ds ≠ []) (had : ∀ c ∈ da, isDigitCh c = true)
    (hbd : ∀ c ∈ db, isDigitCh c = true) (hsd : ∀ c ∈ ds, isDigitCh c = true)
    (hnzb : charsToNat db ≠ 0) (hnzs : charsToNat ds ≠ 0) :
    parsePart (da ++ '-' :: db ++ '/' :: ds) id
      = some (rangeList (charsToNat da) (charsToNat db) (charsToNat ds)) := by
  unfold parsePart
  rw [if_neg (comma_not_mem_rangeStep da db ds had hbd hsd)]
  unfold parsePartNoComma
  rw [matchPart_rangeStep da db ds ha hb hs had hbd hsd]
  have hargs : partArgs ⟨false, some da, some db, some ds⟩ id
      = some (charsToNat da, charsToNat db, charsToNat ds) := by
    unfold partArgs
    simp [stepOf, maxOf, hnzb, hnzs]
  have h2 : (match partArgs ⟨false, some da, some db, some ds⟩ id with
      | none => Option.map (fun mn => [charsToNat mn])
          (PartMatch.minG ⟨false, some da, some db, some ds⟩)
      | some a => some (rangeList a.1 a.2.1 a.2.2)) =
      some (rangeList (charsToNat da) (charsToNat db) (charsToNat ds)) := by
    rw [hargs]
  exact h2

theorem rangeList_swap (mn mx st : Nat) : rangeList mn mx st = rangeList mx mn st := by
  rw [rangeList_eq, rangeList_eq, Nat.max_comm, Nat.min_comm]

/-! ## The claims -/

/-- C1: the claim says an origin `next` call returns the smallest matching
UTC timestamp (at minute resolution) at or after `referenceMoment + 1
minute`.  The code violates it: for the schedule of `"* * * * *"` and
reference moment 2024-01-01T23:59:00Z (1704153540000 ms), `now = ref + 1
min` rolls over to the next day, but the hour/minute search keeps using
the reference day's date, so `next` returns 2024-01-01T00:00:00Z
(1704067200000 ms), strictly before the search start — while
2024-01-02T00:00:00Z (1704153600000 ms) is a schedule match at or after
the search start. -/
theorem C1_next_returns_past :
    parseString exprStar = Except.ok
      [schedStar.minutes, schedStar.hours, schedStar.days, schedStar.months, schedStar.dows]
  ∧ nextFuel schedStar 10 1704153540000 true = some (some 1704067200000)
  ∧ 1704067200000 < 1704153540000 + 60000
  ∧ dayQualifies schedStar 1704153600000 = true
  ∧ utcMinutes 1704153600000 ∈ schedStar.minutes
  ∧ utcHours 1704153600000 ∈ schedStar.hours
  ∧ 1704153540000 + 60000 ≤ 1704153600000 :=
  ⟨rfl, rfl, by decide, rfl, by decide, by decide, by decide⟩

/-- C2 (counterexample): the claim asserts every accepted expression
yields values within the field domain bounds, but the parser never
bounds-checks numerals: `"70 0 1 1 0"` is accepted and its minute list is
`[70]`, outside `[0, 59]`. -/
theorem C2_bounds_counterexample :
    mkSchedule (fun _ => 0) 0 expr70 = Except.ok ⟨[70], [0], [1], [1], [0]⟩
  ∧ ¬ (70 ≤ 59) :=
  ⟨rfl, by decide⟩

/-- C2 (amended): for every expression accepted by construction, each of
the five parsed sequences is strictly ascending (hence sorted and
duplicate-free) and non-empty; the domain-bounds clause of the claim does
not hold (out-of-range numerals are accepted verbatim). -/
theorem C2_amended_invariants (rand : Nat → Nat) (now : Nat) (e : List Char) (s : Sched)
    (h : mkSchedule rand now e = Except.ok s) :
    (s.minutes ≠ [] ∧ s.minutes.Pairwise (· < ·))
  ∧ (s.hours ≠ [] ∧ s.hours.Pairwise (· < ·))
  ∧ (s.days ≠ [] ∧ s.days.Pairwise (· < ·))
  ∧ (s.months ≠ [] ∧ s.months.Pairwise (· < ·))
  ∧ (s.dows ≠ [] ∧ s.dows.Pairwise (· < ·)) := by
  obtain ⟨fs, hp, rfl⟩ := mkSchedule_ok h
  obtain ⟨h5, hmem⟩ := parseString_ok hp
  exact toSched_fields h5 hmem

/-- C2 witness: the amended invariants applied to the concrete expression
`"5,1,3 * * * *"`, whose minute field parses to `[1, 3, 5]`. -/
theorem C2_amended_witness :
    sched513.minutes ≠ [] ∧ sched513.minutes.Pairwise (· < ·) :=
  (C2_amended_invariants (fun _ => 0) 0 expr513 sched513 rfl).1

/-- C3: the claim (and spec §4.3) says that when the first hour of the
hour set at or after `now`'s hour is strictly later than `now`'s hour,
`next` uses that hour together with the first (default) minute of the
minute set.  The code violates it: for `"0,55 5 * * *"` at
2024-01-01T03:50:00Z (1704081000000 ms), `now`'s hour is 3, the found
hour is 5 (strictly later), yet the minute filter still applies and
`next` returns 05:55 (1704088500000 ms) instead of the claimed 05:00
(`retDate` with the default minute 0, 1704085200000 ms). -/
theorem C3_minute_not_default :
    parseString expr0555 = Except.ok
      [sched0555.minutes, sched0555.hours, sched0555.days, sched0555.months, sched0555.dows]
  ∧ dayQualifies sched0555 1704081000000 = true
  ∧ utcHours (1704081000000 + 60000) = 3
  ∧ findIdxF (fun hr => decide (utcHours (1704081000000 + 60000) ≤ hr)) sched0555.hours
      = some 0
  ∧ sched0555.hours.get? 0 = some 5
  ∧ 3 < 5
  ∧ sched0555.minutes.head? = some 0
  ∧ nextFuel sched0555 10 1704081000000 true = some (some 1704088500000)
  ∧ retDate 1704081000000 5 0 = 1704085200000
  ∧ 1704088500000 ≠ 1704085200000 :=
  ⟨rfl, rfl, rfl, rfl, rfl, by decide, rfl, rfl, rfl, by decide⟩

/-- C4: construction raises the structural error exactly when the
normalized expression does not split into exactly 5 fields, and `next`
never produces an error outcome for a successfully constructed schedule
(every terminating run returns a genuine timestamp; in the embedding the
only conceivable error outcome `some none` — an `undefined` hour or
minute reaching `Date.UTC` — is unreachable). -/
theorem C4_structural_error_and_next_total :
    (∀ s : List Char,
      parseString s = Except.error CronError.structural ↔ (splitCh ' ' s).length ≠ 5)
  ∧ (∀ (rand : Nat → Nat) (now : Nat) (e : List Char) (sched : Sched),
      mkSchedule rand now e = Except.ok sched →
      ∀ (fuel z : Nat) (o : Bool), nextFuel sched fuel z o ≠ some none) := by
  constructor
  · intro s
    unfold parseString
    by_cases hlen : (splitCh ' ' s).length ≠ 5
    · rw [if_pos hlen]
      simp [hlen]
    · rw [if_neg hlen]
      cases hp : parseFields 0 (splitCh ' ' s) <;> simp [hlen]
  · intro rand now e sched h fuel z o
    obtain ⟨fs, hp, rfl⟩ := mkSchedule_ok h
    obtain ⟨h5, hmem⟩ := parseString_ok hp
    obtain ⟨⟨hmne, -⟩, ⟨hhne, -⟩, -⟩ := toSched_fields h5 hmem
    exact nextFuel_no_invalid hmne hhne fuel z o

/-- C4 witness: the theorem applied to the concrete expression
`"0 0 1 1 1"` and a concrete `next` invocation. -/
theorem C4_witness :
    nextFuel (toSched [[0], [0], [1], [1], [1]]) 3 1704067200000 true ≠ some none :=
  C4_structural_error_and_next_total.2 (fun _ => 0) 0 exprNewYear
    (toSched [[0], [0], [1], [1], [1]]) rfl 3 1704067200000 true

/-- C5 (counterexample): the claim asserts `"a-b"` and `"b-a"` always
parse to the same set for in-domain `a > b`, but a range max whose digits
read as `0` is replaced by the field's domain maximum
(`parseInt(max) || allowedNum[id][1]`): in the minute field, `"5-0"`
yields `[5..59]` while `"0-5"` yields `[0..5]`. -/
theorem C5_swap_counterexample :
    (0 < 5 ∧ 5 ≤ 59)
  ∧ parsePart ['5', '-', '0'] 0 ≠ parsePart ['0', '-', '5'] 0 :=
  ⟨by decide, by decide⟩

/-- C5 (amended): for every field position and in-domain pair `a > b`
with `b ≥ 1` (so that the max text does not read as `0`), parsing the
field text `a-b` yields exactly the same value list as parsing `b-a`:
the reversed range is swapped before generation, not rejected. -/
theorem C5_amended_swap (id a b : Nat) (da db : List Char)
    (ha : da ≠ []) (hb : db ≠ [])
    (had : ∀ c ∈ da, isDigitCh c = true) (hbd : ∀ c ∈ db, isDigitCh c = true)
    (hva : charsToNat da = a) (hvb : charsToNat db = b)
    (hdom : (allowedNum id).1 ≤ b ∧ a ≤ (allowedNum id).2)
    (hba : b < a) (hb1 : 1 ≤ b) :
    parsePart (da ++ '-' :: db) id = parsePart (db ++ '-' :: da) id := by
  have hnzb : charsToNat db ≠ 0 := by omega
  have hnza : charsToNat da ≠ 0 := by omega
  rw [parsePart_range id da db ha hb had hbd hnzb,
      parsePart_range id db da hb ha hbd had hnza, hva, hvb, rangeList_swap]

/-- C5 witness: the amended claim applied to the concrete minute-field
texts `"5-1"` and `"1-5"`. -/
theorem C5_amended_witness :
    parsePart ['5', '-', '1'] 0 = parsePart ['1', '-', '5'] 0 :=
  C5_amended_swap 0 5 1 ['5'] ['1'] (by decide) (by decide) (by decide) (by decide)
    (by decide) (by decide) (by decide) (by decide) (by decide)

/-- C6 (counterexample): the claim asserts `"min-max/step"` yields
`⌊(max-min)/step⌋+1` evenly spaced elements for every `min ≤ max` and
`step ≥ 1`, but a max whose digits read as `0` is replaced by the domain
maximum: in the minute field `"0-0/1"` yields the 60 values `[0..59]`
instead of the single claimed element `[0]`. -/
theorem C6_zero_max_counterexample :
    (0 ≤ 0 ∧ 1 ≤ 1)
  ∧ parsePart ['0', '-', '0', '/', '1'] 0 = some (rangeList 0 59 1)
  ∧ parsePart ['0', '-', '0', '/', '1'] 0 ≠ some [0] :=
  ⟨by decide, rfl, by decide⟩

/-- C6 (amended): for every field position, `min ≤ max`, `max ≥ 1` (so
that the max text does not read as `0`) and `step ≥ 1`, parsing the field
text `min-max/step` yields exactly the `⌊(max-min)/step⌋+1` evenly spaced
elements `min + k·step`. -/
theorem C6_amended_stepped (id mn mx st : Nat) (da db ds : List Char)
    (ha : da ≠ []) (hb : db ≠ []) (hs : ds ≠ [])
    (had : ∀ c ∈ da, isDigitCh c = true) (hbd : ∀ c ∈ db, isDigitCh c = true)
    (hsd : ∀ c ∈ ds, isDigitCh c = true)
    (hvmn : charsToNat da = mn) (hvmx : charsToNat db = mx) (hvst : charsToNat ds = st)
    (hle : mn ≤ mx) (hmx1 : 1 ≤ mx) (hst1 : 1 ≤ st) :
    parsePart (da ++ '-' :: db ++ '/' :: ds) id
      = some ((List.range ((mx - mn) / st + 1)).map (fun k => mn + k * st))
  ∧ ((List.range ((mx - mn) / st + 1)).map (fun k => mn + k * st)).length
      = (mx - mn) / st + 1 := by
  constructor
  · rw [parsePart_rangeStep id da db ds ha hb hs had hbd hsd (by omega) (by omega),
        hvmn, hvmx, hvst, rangeList_eq]
    have h1 : min mn mx = mn := by omega
    have h2 : max mn mx = mx := by omega
    rw [h1, h2]
  · simp

/-- C6 witness: the amended claim applied to the concrete minute-field
text `"10-20/3"`, which yields the 4 elements `[10, 13, 16, 19]`. -/
theorem C6_amended_witness :
    parsePart ['1', '0', '-', '2', '0', '/', '3'] 0
      = some ((List.range ((20 - 10) / 3 + 1)).map (fun k => 10 + k * 3)) :=
  (C6_amended_stepped 0 10 20 3 ['1', '0'] ['2', '0'] ['3'] (by decide) (by decide)
    (by decide) (by decide) (by decide) (by decide) (by decide) (by decide) (by decide)
    (by decide) (by decide) (by decide)).1

/-- C7: the claim says the `'?'` placeholder in the month field (position
3) is replaced by the current month in the field's 1-12 domain.  The code
inserts the zero-based `now.getUTCMonth()` instead: with the current
moment 2024-01-15T10:30:00Z (1705314600000 ms, a January moment whose
1-12 month is 1), the field becomes `"0"`, not `"1"` — inconsistent with
`next`'s own `getUTCMonth() + 1` comparison against the parsed month
set. -/
theorem C7_month_placeholder_zero_based :
    normalizeField (fun _ => 0) 1705314600000 3 ['?'] = ['0']
  ∧ utcMonth0 1705314600000 + 1 = 1
  ∧ natToChars (utcMonth0 1705314600000 + 1) = ['1']
  ∧ normalize (fun _ => 0) 1705314600000 exprQMonth
      = ['*', ' ', '*', ' ', '*', ' ', '0', ' ', '*']
  ∧ (['0'] : List Char) ≠ ['1'] :=
  ⟨rfl, rfl, rfl, rfl, by decide⟩

/-- C8: for the expression `"0 0 * * *"` and reference moment
2024-01-01T00:00:00Z (1704067200000 ms), an origin call to `next`
returns 2024-01-02T00:00:00Z (1704153600000 ms = `Date.UTC(2024, 0, 2)`):
00:00 of day 1 is not at or after `now + 1 minute`, the day is exhausted
and the search advances to the next day's default time. -/
theorem C8_midnight_next_day :
    mkSchedule (fun _ => 0) 0 exprMidnight = Except.ok schedMidnight
  ∧ nextFuel schedMidnight 10 1704067200000 true = some (some 1704153600000)
  ∧ 1704153600000 = mkUTC 2024 0 2 0 0 :=
  ⟨rfl, rfl, rfl⟩

/-- C9: a non-origin `next` call returns the first qualifying day at or
after the reference moment (advancing whole days, so independent of the
time of day) combined with the first — under the schedule invariant the
smallest — hour of the hour set and minute of the minute set. -/
theorem C9_nonorigin_first_qualifying_day (s : Sched) (h0 m0 : Nat)
    (hh : s.hours.head? = some h0) (hhmin : ∀ x ∈ s.hours, h0 ≤ x)
    (hm : s.minutes.head? = some m0) (hmmin : ∀ x ∈ s.minutes, m0 ≤ x) :
    ∀ (fuel z r : Nat), nextFuel s fuel z false = some (some r) →
      ∃ k, dayQualifies s (z + k * day) = true
        ∧ (∀ j, j < k → dayQualifies s (z + j * day) = false)
        ∧ r = retDate (z + k * day) h0 m0 := by
  intro fuel
  induction fuel with
  | zero => intro z r h; simp [nextFuel] at h
  | succ n ih =>
    intro z r h
    by_cases hq : dayQualifies s z
    · simp only [nextFuel, if_pos hq, Bool.false_eq_true, if_false] at h
      rw [hh, hm] at h
      simp only [mkRet, Option.some.injEq] at h
      exact ⟨0, by simpa using hq, by intro j hj; omega, by simp [← h]⟩
    · simp only [nextFuel, if_neg hq] at h
      obtain ⟨k, hk1, hk2, hk3⟩ := ih (z + day) r h
      refine ⟨k + 1, ?_, ?_, ?_⟩
      · rw [show z + (k + 1) * day = z + day + k * day by ring]
        exact hk1
      · intro j hj
        cases j with
        | zero => simpa using hq
        | succ j' =>
          rw [show z + (j' + 1) * day = z + day + j' * day by ring]
          exact hk2 j' (by omega)
      · rw [show z + (k + 1) * day = z + day + k * day by ring]
        exact hk3

/-- C9 witness: the theorem applied to the schedule of `"* * * * *"` at
the already-qualifying reference moment 2024-01-01T00:00:00Z. -/
theorem C9_witness :
    ∃ k, dayQualifies schedStar (1704067200000 + k * day) = true
      ∧ (∀ j, j < k → dayQualifies schedStar (1704067200000 + j * day) = false)
      ∧ 1704067200000 = retDate (1704067200000 + k * day) 0 0 :=
  C9_nonorigin_first_qualifying_day schedStar 0 0 rfl (by decide) rfl (by decide)
    1 1704067200000 1704067200000 rfl

/-- C10: every `(min, max, step)` triple that `_parsePart` hands to the
range generator for a grammar-accepted subpart has `step ≥ 1` (an omitted
step, or a step whose digits read as `0`, is coerced to `1`), and the
generator's output is non-empty with exactly
`⌊(max' - min')/step⌋ + 1` elements (after the internal swap). -/
theorem C10_step_at_least_one (s : List Char) (id : Nat) (m : PartMatch)
    (mn mx st : Nat) (hmtch : matchPart s = some m)
    (ha : partArgs m id = some (mn, mx, st)) :
    1 ≤ st ∧ rangeList mn mx st ≠ []
  ∧ (rangeList mn mx st).length = (max mn mx - min mn mx) / st + 1 :=
  ⟨partArgs_step ha, rangeList_ne_nil mn mx st, rangeList_length mn mx st⟩

/-- C10 witness: the theorem applied to the concrete subpart `"*/7"` in
the minute field, whose triple is `(0, 59, 7)`. -/
theorem C10_witness :
    1 ≤ 7 ∧ rangeList 0 59 7 ≠ []
  ∧ (rangeList 0 59 7).length = (max 0 59 - min 0 59) / 7 + 1 :=
  C10_step_at_least_one ['*', '/', '7'] 0 ⟨true, none, none, some ['7']⟩ 0 59 7 rfl rfl

end Cron
